import Mathlib

/-!
Shallow embedding of `src/knowledge_os/cache_normalizer_rs/src/lib.rs`:
text normalization (lowercase, whitespace collapse) and MD5 cache-key
fingerprints, with the batch variant.

Strings are modelled through their character lists; bytes are `Nat` values
below 256; 32-bit arithmetic is `Nat` arithmetic reduced modulo `2^32`.
-/

namespace CacheNormalizer

/-- Modelled from the spec: Rust `char::is_whitespace` (the standard library
routine `split_whitespace` classifies with), i.e. the Unicode `White_Space`
property: tab through carriage return, space, next line, no-break space,
ogham space mark, the general punctuation spaces U+2000–U+200A, line and
paragraph separators, narrow no-break space, medium mathematical space and
ideographic space. -/
def isWhitespace (c : Char) : Bool :=
  decide (0x9 ≤ c.toNat ∧ c.toNat ≤ 0xD) ||
  decide (0x2000 ≤ c.toNat ∧ c.toNat ≤ 0x200A) ||
  [0x20, 0x85, 0xA0, 0x1680, 0x2028, 0x2029, 0x202F, 0x205F,
    0x3000].contains c.toNat

/-- Modelled from the spec: the full Unicode lowercase mapping used by Rust
`str::to_lowercase`, restricted to the code points this development
exercises: the ASCII uppercase letters, Latin capital letter I with dot
above (U+0130, whose lowercase is `i` followed by combining dot above
U+0307 — the one-to-many case), and Greek capital sigma (U+03A3). Every
character outside the table maps to itself. -/
def lowerTable : List (Char × List Char) :=
  [('A', ['a']), ('B', ['b']), ('C', ['c']), ('D', ['d']), ('E', ['e']),
   ('F', ['f']), ('G', ['g']), ('H', ['h']), ('I', ['i']), ('J', ['j']),
   ('K', ['k']), ('L', ['l']), ('M', ['m']), ('N', ['n']), ('O', ['o']),
   ('P', ['p']), ('Q', ['q']), ('R', ['r']), ('S', ['s']), ('T', ['t']),
   ('U', ['u']), ('V', ['v']), ('W', ['w']), ('X', ['x']), ('Y', ['y']),
   ('Z', ['z']),
   (Char.ofNat 0x130, ['i', Char.ofNat 0x307]),
   (Char.ofNat 0x3A3, [Char.ofNat 0x3C3])]

/-- Lowercase one character: the table entry when there is one, otherwise the
character itself. -/
def charLower (c : Char) : List Char :=
  match lowerTable.find? (fun p => p.1 == c) with
  | some p => p.2
  | none => [c]

/-- `text.to_lowercase()`: character-wise application of the lowercase
mapping. -/
def toLowercase (s : String) : String :=
  String.mk (s.data.flatMap charLower)

/-- Auxiliary for `splitWhitespace`; `cur` holds the characters of the word
being collected, in reverse. -/
def splitWsAux : List Char → List Char → List (List Char)
  | [], cur => if cur.isEmpty then [] else [cur.reverse]
  | c :: rest, cur =>
    if isWhitespace c then
      if cur.isEmpty then splitWsAux rest []
      else cur.reverse :: splitWsAux rest []
    else splitWsAux rest (c :: cur)

/-- Rust `str::split_whitespace` on a character list: the maximal runs of
non-whitespace characters, in order; whitespace runs separate words and
empty fragments never appear. -/
def splitWhitespace (l : List Char) : List (List Char) :=
  splitWsAux l []

/-- `normalize` from lib.rs: lowercase the text, then write the
whitespace-split words into one output buffer, pushing a single ASCII space
before every word but the first (the `first` flag of the source loop is the
second component of the fold state). -/
def normalize (text : String) : String :=
  let lower := toLowercase text
  let step : List Char × Bool → List Char → List Char × Bool :=
    fun acc word => ((if acc.2 then acc.1 else acc.1 ++ [' ']) ++ word, false)
  String.mk ((splitWhitespace lower.data).foldl step ([], true)).1

/-! ## MD5 (RFC 1321), as called through `md5::compute` -/

/-- `2^32`, the modulus of the 32-bit arithmetic. -/
def M32 : Nat := 4294967296

/-- Bitwise complement on 32 bits. -/
def not32 (x : Nat) : Nat := x ^^^ 0xFFFFFFFF

/-- Left rotation of a 32-bit value by `n` places (`0 < n < 32` in every
use). -/
def rotl32 (x n : Nat) : Nat := ((x <<< n) % M32) ||| (x >>> (32 - n))

/-- Per-round left-rotation amounts (RFC 1321). -/
def md5s : List Nat :=
  [7, 12, 17, 22, 7, 12, 17, 22, 7, 12, 17, 22, 7, 12, 17, 22,
   5, 9, 14, 20, 5, 9, 14, 20, 5, 9, 14, 20, 5, 9, 14, 20,
   4, 11, 16, 23, 4, 11, 16, 23, 4, 11, 16, 23, 4, 11, 16, 23,
   6, 10, 15, 21, 6, 10, 15, 21, 6, 10, 15, 21, 6, 10, 15, 21]

/-- Sine-derived additive constants (RFC 1321). -/
def md5K : List Nat :=
  [0xd76aa478, 0xe8c7b756, 0x242070db, 0xc1bdceee,
   0xf57c0faf, 0x4787c62a, 0xa8304613, 0xfd469501,
   0x698098d8, 0x8b44f7af, 0xffff5bb1, 0x895cd7be,
   0x6b901122, 0xfd987193, 0xa679438e, 0x49b40821,
   0xf61e2562, 0xc040b340, 0x265e5a51, 0xe9b6c7aa,
   0xd62f105d, 0x02441453, 0xd8a1e681, 0xe7d3fbc8,
   0x21e1cde6, 0xc33707d6, 0xf4d50d87, 0x455a14ed,
   0xa9e3e905, 0xfcefa3f8, 0x676f02d9, 0x8d2a4c8a,
   0xfffa3942, 0x8771f681, 0x6d9d6122, 0xfde5380c,
   0xa4beea44, 0x4bdecfa9, 0xf6bb4b60, 0xbebfbc70,
   0x289b7ec6, 0xeaa127fa, 0xd4ef3085, 0x04881d05,
   0xd9d4d039, 0xe6db99e5, 0x1fa27cf8, 0xc4ac5665,
   0xf4292244, 0x432aff97, 0xab9423a7, 0xfc93a039,
   0x655b59c3, 0x8f0ccc92, 0xffeff47d, 0x85845dd1,
   0x6fa87e4f, 0xfe2ce6e0, 0xa3014314, 0x4e0811a1,
   0xf7537e82, 0xbd3af235, 0x2ad7d2bb, 0xeb86d391]

/-- The four 32-bit running words of the MD5 state. -/
structure MD5State where
  a : Nat
  b : Nat
  c : Nat
  d : Nat

/-- Round function of rounds 0–15. -/
def md5F (b c d : Nat) : Nat := (b &&& c) ||| (not32 b &&& d)

/-- Round function of rounds 16–31. -/
def md5G (b c d : Nat) : Nat := (d &&& b) ||| (not32 d &&& c)

/-- Round function of rounds 32–47. -/
def md5H (b c d : Nat) : Nat := b ^^^ c ^^^ d

/-- Round function of rounds 48–63. -/
def md5I (b c d : Nat) : Nat := c ^^^ (b ||| not32 d)

/-- One MD5 round: `M` is the 16-word message block, `i` the round index. -/
def md5Round (M : List Nat) (st : MD5State) (i : Nat) : MD5State :=
  let fg :=
    if i < 16 then (md5F st.b st.c st.d, i)
    else if i < 32 then (md5G st.b st.c st.d, (5 * i + 1) % 16)
    else if i < 48 then (md5H st.b st.c st.d, (3 * i + 5) % 16)
    else (md5I st.b st.c st.d, (7 * i) % 16)
  let x := (st.a + fg.1 + md5K.getD i 0 + M.getD fg.2 0) % M32
  ⟨st.d, (st.b + rotl32 x (md5s.getD i 0)) % M32, st.b, st.c⟩

/-- The fixed MD5 initial state. -/
def md5Init : MD5State := ⟨0x67452301, 0xefcdab89, 0x98badcfe, 0x10325476⟩

/-- Little-endian value of a byte list. -/
def leWord (bytes : List Nat) : Nat :=
  bytes.foldr (fun b acc => b + 256 * acc) 0

/-- `chunk n k l` cuts `n` pieces of `k` elements off the front of `l`. -/
def chunk : Nat → Nat → List Nat → List (List Nat)
  | 0, _, _ => []
  | n + 1, k, l => l.take k :: chunk n k (l.drop k)

/-- The sixteen 32-bit little-endian words of a 64-byte block. -/
def md5Words (block : List Nat) : List Nat :=
  (chunk 16 4 block).map leWord

/-- Process one 64-byte block: 64 rounds, then add the incoming state back
in. -/
def md5Block (st : MD5State) (block : List Nat) : MD5State :=
  let e := (List.range 64).foldl (md5Round (md5Words block)) st
  ⟨(st.a + e.a) % M32, (st.b + e.b) % M32, (st.c + e.c) % M32,
   (st.d + e.d) % M32⟩

/-- The `k` little-endian bytes of `n`. -/
def toBytesLE : Nat → Nat → List Nat
  | 0, _ => []
  | k + 1, n => n % 256 :: toBytesLE k (n / 256)

/-- MD5 padding: a `0x80` byte, zeros up to 56 mod 64, then the bit length
as eight little-endian bytes. -/
def md5Pad (msg : List Nat) : List Nat :=
  msg ++ 0x80 :: List.replicate ((119 - msg.length % 64) % 64) 0 ++
    toBytesLE 8 (msg.length * 8)

/-- The 16-byte MD5 digest of a byte list: pad, run every 64-byte block
through the compression function, serialize the four state words
little-endian. -/
def md5Bytes (msg : List Nat) : List Nat :=
  let padded := md5Pad msg
  let st := (chunk (padded.length / 64) 64 padded).foldl md5Block md5Init
  toBytesLE 4 st.a ++ toBytesLE 4 st.b ++ toBytesLE 4 st.c ++ toBytesLE 4 st.d

/-- Lowercase hexadecimal digit of a value below 16. -/
def hexDigit (n : Nat) : Char :=
  if n < 10 then Char.ofNat (0x30 + n) else Char.ofNat (0x57 + n)

/-- `faster_hex::hex_string`: each byte as two lowercase hex characters,
high nibble first, bytes in order. -/
def hex_string (bs : List Nat) : String :=
  String.mk (bs.flatMap (fun b => [hexDigit (b / 16), hexDigit (b % 16)]))

/-- UTF-8 encoding of one character (1–4 bytes by code-point range). -/
def utf8Char (c : Char) : List Nat :=
  let n := c.toNat
  if n < 0x80 then [n]
  else if n < 0x800 then [0xC0 + n / 64, 0x80 + n % 64]
  else if n < 0x10000 then [0xE0 + n / 4096, 0x80 + n / 64 % 64, 0x80 + n % 64]
  else [0xF0 + n / 262144, 0x80 + n / 4096 % 64, 0x80 + n / 64 % 64,
        0x80 + n % 64]

/-- UTF-8 byte encoding of a string (`normalized.as_bytes()`). -/
def utf8Encode (s : String) : List Nat :=
  s.data.flatMap utf8Char

/-- `text_hash` from lib.rs: MD5 of the UTF-8 bytes of the normalized text,
rendered as lowercase hex. -/
def text_hash (text : String) : String :=
  hex_string (md5Bytes (utf8Encode (normalize text)))

/-- Exported `normalize_and_hash`. -/
def normalize_and_hash (text : String) : String :=
  text_hash text

/-- Exported `normalize_text`. -/
def normalize_text (text : String) : String :=
  normalize text

/-- Exported `normalize_and_hash_batch`: the source loop pushes
`text_hash` of each element onto the output vector in order. -/
def normalize_and_hash_batch (texts : List String) : List String :=
  texts.foldl (fun out s => out ++ [text_hash s]) []

/-! ## Derived definitions used by the statements -/

/-- The words joined by single ASCII spaces: closed form of the source's
append-with-flag loop. -/
def sepJoin : List (List Char) → List Char
  | [] => []
  | w :: ws => w ++ ws.flatMap (fun v => ' ' :: v)

/-- `true` when the list holds no two consecutive ASCII spaces. -/
def noDoubleSpace : List Char → Bool
  | a :: b :: rest => !(a == ' ' && b == ' ') && noDoubleSpace (b :: rest)
  | _ => true

/-- Reference normalizer following the spec text: lowercase every character
with the full Unicode lowercase mapping, split the result on maximal runs
of whitespace characters discarding the empty fragments, and rejoin the
fragments, in order, with a single ASCII space. -/
def normalizeSpec (text : String) : String :=
  String.mk (List.intercalate [' ']
    (((toLowercase text).data.splitOnP isWhitespace).filter
      (fun w => !w.isEmpty)))

/-- The sixteen lowercase hexadecimal digits. -/
def hexAlphabet : List Char :=
  "0123456789abcdef".data

/-- Numeric value of one lowercase hexadecimal digit. -/
def hexVal (c : Char) : Nat :=
  if 0x61 ≤ c.toNat then c.toNat - 0x57 else c.toNat - 0x30

/-- Value of a hexadecimal digit string, first character most significant. -/
def hexCharsVal (l : List Char) : Nat :=
  l.foldl (fun acc c => 16 * acc + hexVal c) 0

/-- Value of a byte sequence read most-significant byte first. -/
def bytesVal (bs : List Nat) : Nat :=
  bs.foldl (fun acc b => 256 * acc + b) 0

/-! ## The join loop and the word splitter -/

lemma foldl_step_false (ws : List (List Char)) (acc : List Char) :
    (ws.foldl
      (fun a word => ((if a.2 then a.1 else a.1 ++ [' ']) ++ word, false))
      (acc, false)).1 = acc ++ ws.flatMap (fun v => ' ' :: v) := by
  induction ws generalizing acc with
  | nil => simp
  | cons w ws ih => simp [ih, List.append_assoc]

lemma normalize_data (t : String) :
    (normalize t).data = sepJoin (splitWhitespace (toLowercase t).data) := by
  have key : ∀ ws : List (List Char),
      (ws.foldl
        (fun a word => ((if a.2 then a.1 else a.1 ++ [' ']) ++ word, false))
        ([], true)).1 = sepJoin ws := by
    intro ws
    cases ws with
    | nil => rfl
    | cons w tl => simp [foldl_step_false, sepJoin]
  exact key _

lemma modifyHead_self (L : List (List Char)) :
    L.modifyHead (fun x => x) = L := by
  cases L <;> rfl

lemma splitWsAux_splitOnP (l : List Char) :
    ∀ cur : List Char,
      splitWsAux l cur =
        ((l.splitOnP isWhitespace).modifyHead (fun x => cur.reverse ++ x)).filter
          (fun w => !w.isEmpty) := by
  induction l with
  | nil =>
    intro cur
    cases cur <;> simp [splitWsAux, List.modifyHead]
  | cons c rest ih =>
    intro cur
    by_cases hc : isWhitespace c
    · rw [List.splitOnP_cons, if_pos hc]
      by_cases hcur : cur.isEmpty
      · have : cur = [] := by cases cur <;> simp_all
        subst this
        simp [splitWsAux, hc, ih [], modifyHead_self]
      · have hne : cur.reverse ≠ [] := by cases cur <;> simp_all
        simp [splitWsAux, hc, hcur, ih [], modifyHead_self, List.filter_cons,
          List.isEmpty_iff, hne]
    · rw [List.splitOnP_cons, if_neg hc, List.modifyHead_modifyHead]
      rw [show splitWsAux (c :: rest) cur = splitWsAux rest (c :: cur) from by
        simp [splitWsAux, hc]]
      rw [ih (c :: cur)]
      congr 2
      funext x
      simp [Function.comp, List.append_assoc]

lemma splitWhitespace_splitOnP (l : List Char) :
    splitWhitespace l =
      (l.splitOnP isWhitespace).filter (fun w => !w.isEmpty) := by
  rw [splitWhitespace, splitWsAux_splitOnP l []]
  simp [modifyHead_self]

lemma intercalate_space (ws : List (List Char)) :
    List.intercalate [' '] ws = sepJoin ws := by
  induction ws with
  | nil => rfl
  | cons w tl ih =>
    cases tl with
    | nil => simp [List.intercalate, sepJoin]
    | cons x t =>
      rw [sepJoin]
      rw [show (x :: t).flatMap (fun v => ' ' :: v) = ' ' :: sepJoin (x :: t)
        from by simp [sepJoin]]
      rw [← ih]
      simp [List.intercalate, List.intersperse_cons_cons]

lemma splitWsAux_words (l : List Char) :
    ∀ cur, (∀ c ∈ cur, isWhitespace c = false) →
      ∀ w ∈ splitWsAux l cur, w ≠ [] ∧ ∀ c ∈ w, isWhitespace c = false := by
  induction l with
  | nil =>
    intro cur hcur w hw
    by_cases h : cur.isEmpty
    · simp [splitWsAux, h] at hw
    · simp only [splitWsAux, h, if_neg, Bool.false_eq_true, if_false,
        List.mem_singleton] at hw
      subst hw
      refine ⟨by cases cur <;> simp_all, ?_⟩
      intro c hc
      exact hcur c (List.mem_reverse.mp hc)
  | cons c rest ih =>
    intro cur hcur w hw
    by_cases hc : isWhitespace c
    · by_cases hcur2 : cur.isEmpty
      · simp only [splitWsAux, hc, if_true, hcur2] at hw
        exact ih [] (by simp) w hw
      · simp only [splitWsAux, hc, if_true, hcur2, Bool.false_eq_true,
          if_false, List.mem_cons] at hw
        rcases hw with hw | hw
        · subst hw
          refine ⟨by cases cur <;> simp_all, ?_⟩
          intro d hd
          exact hcur d (List.mem_reverse.mp hd)
        · exact ih [] (by simp) w hw
    · simp only [splitWsAux, hc, Bool.false_eq_true, if_false] at hw
      refine ih (c :: cur) ?_ w hw
      intro d hd
      rcases List.mem_cons.mp hd with rfl | hd
      · simpa using hc
      · exact hcur d hd

lemma splitWhitespace_words (l : List Char) :
    ∀ w ∈ splitWhitespace l, w ≠ [] ∧ ∀ c ∈ w, isWhitespace c = false :=
  splitWsAux_words l [] (by simp)

lemma splitWsAux_chars (l : List Char) :
    ∀ cur, ∀ w ∈ splitWsAux l cur, ∀ c ∈ w, c ∈ cur ∨ c ∈ l := by
  induction l with
  | nil =>
    intro cur w hw c hc
    by_cases h : cur.isEmpty
    · simp [splitWsAux, h] at hw
    · simp only [splitWsAux, h, Bool.false_eq_true, if_false,
        List.mem_singleton] at hw
      subst hw
      exact Or.inl (List.mem_reverse.mp hc)
  | cons a rest ih =>
    intro cur w hw c hc
    by_cases ha : isWhitespace a
    · by_cases hcur : cur.isEmpty
      · simp only [splitWsAux, ha, if_true, hcur] at hw
        rcases ih [] w hw c hc with h | h
        · simp at h
        · exact Or.inr (List.mem_cons_of_mem a h)
      · simp only [splitWsAux, ha, if_true, hcur, Bool.false_eq_true,
          if_false, List.mem_cons] at hw
        rcases hw with hw | hw
        · subst hw
          exact Or.inl (List.mem_reverse.mp hc)
        · rcases ih [] w hw c hc with h | h
          · simp at h
          · exact Or.inr (List.mem_cons_of_mem a h)
    · simp only [splitWsAux, ha, Bool.false_eq_true, if_false] at hw
      rcases ih (a :: cur) w hw c hc with h | h
      · rcases List.mem_cons.mp h with rfl | h
        · exact Or.inr (List.mem_cons_self c rest)
        · exact Or.inl h
      · exact Or.inr (List.mem_cons_of_mem a h)

lemma splitWsAux_all_ws (l : List Char) (h : ∀ c ∈ l, isWhitespace c = true) :
    splitWsAux l [] = [] := by
  induction l with
  | nil => rfl
  | cons c rest ih =>
    simp only [splitWsAux, h c (List.mem_cons_self c rest), if_true,
      List.isEmpty_nil]
    exact ih fun d hd => h d (List.mem_cons_of_mem c hd)

/-! ## Properties of the joined word list -/

lemma sepJoin_cons_cons (w x : List Char) (t : List (List Char)) :
    sepJoin (w :: x :: t) = w ++ ' ' :: sepJoin (x :: t) := by
  simp [sepJoin]

lemma sepJoin_mem (ws : List (List Char)) :
    ∀ c ∈ sepJoin ws, c = ' ' ∨ ∃ w ∈ ws, c ∈ w := by
  cases ws with
  | nil => simp [sepJoin]
  | cons w t =>
    intro c hc
    simp only [sepJoin, List.mem_append, List.mem_flatMap] at hc
    rcases hc with h | ⟨v, hv, hcv⟩
    · exact Or.inr ⟨w, List.mem_cons_self _ _, h⟩
    · rcases List.mem_cons.mp hcv with rfl | h
      · exact Or.inl rfl
      · exact Or.inr ⟨v, List.mem_cons_of_mem _ hv, h⟩

lemma sepJoin_head (ws : List (List Char))
    (h : ∀ w ∈ ws, w ≠ [] ∧ ∀ c ∈ w, isWhitespace c = false) :
    ∀ c, (sepJoin ws).head? = some c → isWhitespace c = false := by
  intro c hc
  cases ws with
  | nil => simp [sepJoin] at hc
  | cons w t =>
    obtain ⟨hne, hw⟩ := h w (List.mem_cons_self _ _)
    cases w with
    | nil => exact absurd rfl hne
    | cons a w' =>
      simp only [sepJoin, List.cons_append, List.head?_cons,
        Option.some.injEq] at hc
      cases hc
      exact hw _ (List.mem_cons_self _ _)

lemma getLast?_mem {l : List Char} {c : Char} (h : l.getLast? = some c) :
    c ∈ l := by
  obtain ⟨hne, heq⟩ :=
    List.mem_getLast?_eq_getLast (show c ∈ l.getLast? from h)
  rw [heq]
  exact List.getLast_mem hne

lemma sepJoin_ne_nil (w : List Char) (t : List (List Char)) (h : w ≠ []) :
    sepJoin (w :: t) ≠ [] := by
  cases w with
  | nil => exact absurd rfl h
  | cons a w' => simp [sepJoin]

lemma sepJoin_getLast (ws : List (List Char))
    (h : ∀ w ∈ ws, w ≠ [] ∧ ∀ c ∈ w, isWhitespace c = false) :
    ∀ c, (sepJoin ws).getLast? = some c → isWhitespace c = false := by
  induction ws with
  | nil => intro c hc; simp [sepJoin] at hc
  | cons w t ih =>
    intro c hc
    cases t with
    | nil =>
      rw [show sepJoin [w] = w ++ [] from by simp [sepJoin],
        List.append_nil] at hc
      exact (h w (List.mem_cons_self _ _)).2 c (getLast?_mem hc)
    | cons x t' =>
      rw [sepJoin_cons_cons] at hc
      have hxe := (h x (List.mem_cons_of_mem _ (List.mem_cons_self _ _))).1
      have hne : sepJoin (x :: t') ≠ [] := sepJoin_ne_nil x t' hxe
      rw [List.getLast?_append_of_ne_nil _ (by simp)] at hc
      rw [show (' ' :: sepJoin (x :: t')) = [' '] ++ sepJoin (x :: t') from rfl,
        List.getLast?_append_of_ne_nil _ hne] at hc
      exact ih (fun v hv => h v (List.mem_cons_of_mem _ hv)) c hc

lemma isWhitespace_space : isWhitespace ' ' = true := by decide

lemma not_space {c : Char} (h : isWhitespace c = false) : (c == ' ') = false := by
  cases hb : (c == ' ') with
  | false => rfl
  | true =>
    have : c = ' ' := beq_iff_eq.mp hb
    subst this
    exact absurd h (by decide)

lemma noDoubleSpace_append (w l : List Char) (hw : ∀ c ∈ w, isWhitespace c = false) :
    noDoubleSpace (w ++ l) = noDoubleSpace l := by
  induction w with
  | nil => rfl
  | cons a w' ih =>
    have ha : (a == ' ') = false := not_space (hw a (List.mem_cons_self _ _))
    have ih' := ih fun c hc => hw c (List.mem_cons_of_mem _ hc)
    cases w' with
    | nil =>
      cases l with
      | nil => simp [noDoubleSpace]
      | cons b l' => simp [noDoubleSpace, ha]
    | cons b w'' =>
      calc noDoubleSpace ((a :: b :: w'') ++ l)
          = noDoubleSpace ((b :: w'') ++ l) := by
            simp [noDoubleSpace, ha]
        _ = noDoubleSpace l := ih'

lemma noDoubleSpace_sepJoin (ws : List (List Char))
    (h : ∀ w ∈ ws, w ≠ [] ∧ ∀ c ∈ w, isWhitespace c = false) :
    noDoubleSpace (sepJoin ws) = true := by
  induction ws with
  | nil => rfl
  | cons w t ih =>
    have hw := (h w (List.mem_cons_self _ _)).2
    cases t with
    | nil =>
      rw [show sepJoin [w] = w ++ [] from by simp [sepJoin],
        noDoubleSpace_append w [] hw]
      rfl
    | cons x t' =>
      rw [sepJoin_cons_cons, noDoubleSpace_append w _ hw]
      have hrest := ih fun v hv => h v (List.mem_cons_of_mem _ hv)
      cases hx2 : sepJoin (x :: t') with
      | nil => rfl
      | cons b rest =>
        have hb : isWhitespace b = false := by
          refine sepJoin_head (x :: t')
            (fun v hv => h v (List.mem_cons_of_mem _ hv)) b ?_
          rw [hx2]
          rfl
        rw [hx2] at hrest
        have hnd : noDoubleSpace (' ' :: b :: rest) =
            ((!(' ' == ' ' && b == ' ')) && noDoubleSpace (b :: rest)) := rfl
        rw [hnd, not_space hb, hrest]
        rfl

/-! ## Splitting a canonical join recovers the words -/

lemma splitWsAux_word_prefix (w : List Char)
    (hw : ∀ c ∈ w, isWhitespace c = false) :
    ∀ rest cur, splitWsAux (w ++ rest) cur = splitWsAux rest (w.reverse ++ cur) := by
  induction w with
  | nil => intro rest cur; rfl
  | cons a w' ih =>
    intro rest cur
    have ha := hw a (List.mem_cons_self _ _)
    rw [List.cons_append]
    rw [show splitWsAux (a :: (w' ++ rest)) cur =
        splitWsAux (w' ++ rest) (a :: cur) from by simp [splitWsAux, ha]]
    rw [ih (fun c hc => hw c (List.mem_cons_of_mem _ hc)) rest (a :: cur)]
    congr 1
    simp [List.append_assoc]

lemma splitWhitespace_sepJoin (ws : List (List Char))
    (h : ∀ w ∈ ws, w ≠ [] ∧ ∀ c ∈ w, isWhitespace c = false) :
    splitWhitespace (sepJoin ws) = ws := by
  induction ws with
  | nil => rfl
  | cons w t ih =>
    obtain ⟨hne, hw⟩ := h w (List.mem_cons_self _ _)
    have hrev : w.reverse.isEmpty = false := by cases w <;> simp_all
    cases t with
    | nil =>
      rw [show sepJoin [w] = w ++ [] from by simp [sepJoin]]
      rw [splitWhitespace, splitWsAux_word_prefix w hw [] [], List.append_nil]
      simp [splitWsAux, hrev]
    | cons x t' =>
      rw [sepJoin_cons_cons, splitWhitespace,
        splitWsAux_word_prefix w hw _ [], List.append_nil]
      simp only [splitWsAux, isWhitespace_space, if_true, hrev,
        Bool.false_eq_true, if_false, List.reverse_reverse]
      congr 1
      exact ih fun v hv => h v (List.mem_cons_of_mem _ hv)

/-! ## The lowercase table -/

lemma lowerTable_outputs : ∀ p ∈ lowerTable, ∀ d ∈ p.2,
    lowerTable.find? (fun q => q.1 == d) = none := by decide

lemma lowerTable_keys : ∀ p ∈ lowerTable, isWhitespace p.1 = false := by decide

lemma charLower_fix {c d : Char} (h : d ∈ charLower c) : charLower d = [d] := by
  unfold charLower at h
  cases hf : lowerTable.find? (fun q => q.1 == c) with
  | none =>
    rw [hf] at h
    simp only [List.mem_singleton] at h
    subst h
    unfold charLower
    rw [hf]
  | some p =>
    rw [hf] at h
    have hp := List.mem_of_find?_eq_some hf
    unfold charLower
    rw [lowerTable_outputs p hp d h]

lemma charLower_of_ws {c : Char} (h : isWhitespace c = true) :
    charLower c = [c] := by
  unfold charLower
  cases hf : lowerTable.find? (fun q => q.1 == c) with
  | none => rfl
  | some p =>
    exfalso
    have hp := List.mem_of_find?_eq_some hf
    have hpc : p.1 = c := by simpa using List.find?_some hf
    rw [← hpc, lowerTable_keys p hp] at h
    simp at h

lemma flatMap_fix (l : List Char) (h : ∀ c ∈ l, charLower c = [c]) :
    l.flatMap charLower = l := by
  induction l with
  | nil => rfl
  | cons a l' ih =>
    rw [List.flatMap_cons, h a (List.mem_cons_self _ _),
      ih fun c hc => h c (List.mem_cons_of_mem _ hc)]
    rfl

/-! ## Normalization-level facts -/

lemma toLowercase_data (t : String) :
    (toLowercase t).data = t.data.flatMap charLower := rfl

lemma normalize_char_fix (t : String) :
    ∀ c ∈ (normalize t).data, charLower c = [c] := by
  intro c hc
  rw [normalize_data] at hc
  rcases sepJoin_mem _ c hc with rfl | ⟨w, hw, hcw⟩
  · exact charLower_of_ws isWhitespace_space
  · have hcl : c ∈ (toLowercase t).data := by
      rcases splitWsAux_chars _ [] w hw c hcw with h | h
      · simp at h
      · exact h
    rw [toLowercase_data] at hcl
    obtain ⟨a, _, hca⟩ := List.mem_flatMap.mp hcl
    exact charLower_fix hca

lemma normalize_idem_helper (t : String) :
    normalize (normalize t) = normalize t := by
  apply String.ext
  rw [normalize_data (normalize t)]
  have h1 : (toLowercase (normalize t)).data = (normalize t).data := by
    rw [toLowercase_data]
    exact flatMap_fix _ (normalize_char_fix t)
  rw [h1, normalize_data t,
    splitWhitespace_sepJoin _ (splitWhitespace_words _)]

lemma normalize_of_all_ws (t : String)
    (h : ∀ c ∈ t.data, isWhitespace c = true) : normalize t = "" := by
  apply String.ext
  rw [normalize_data]
  have hlow : (toLowercase t).data = t.data := by
    rw [toLowercase_data]
    exact flatMap_fix _ fun c hc => charLower_of_ws (h c hc)
  rw [hlow, splitWhitespace, splitWsAux_all_ws t.data h]
  rfl

lemma text_hash_congr_helper (t1 t2 : String)
    (h : normalize t1 = normalize t2) : text_hash t1 = text_hash t2 := by
  unfold text_hash
  rw [h]

set_option maxRecDepth 20000 in
lemma text_hash_empty_val :
    text_hash "" = "d41d8cd98f00b204e9800998ecf8427e" := by decide

/-! ## Digest shape and hex rendering -/

lemma toBytesLE_length (k n : Nat) : (toBytesLE k n).length = k := by
  induction k generalizing n with
  | zero => rfl
  | succ k ih => simp [toBytesLE, ih]

lemma toBytesLE_lt (k n : Nat) : ∀ b ∈ toBytesLE k n, b < 256 := by
  induction k generalizing n with
  | zero => intro b hb; simp [toBytesLE] at hb
  | succ k ih =>
    intro b hb
    rw [toBytesLE] at hb
    rcases List.mem_cons.mp hb with rfl | hb
    · exact Nat.mod_lt _ (by norm_num)
    · exact ih _ b hb

lemma md5Bytes_length (msg : List Nat) : (md5Bytes msg).length = 16 := by
  unfold md5Bytes
  simp [toBytesLE_length]

lemma md5Bytes_lt (msg : List Nat) : ∀ b ∈ md5Bytes msg, b < 256 := by
  unfold md5Bytes
  intro b hb
  simp only [List.mem_append] at hb
  rcases hb with ((hb | hb) | hb) | hb <;> exact toBytesLE_lt _ _ b hb

lemma hexDigit_val : ∀ n, n < 16 → hexVal (hexDigit n) = n := by decide

lemma hexDigit_mem : ∀ n, n < 16 → hexDigit n ∈ hexAlphabet := by decide

lemma hex_string_data (bs : List Nat) :
    (hex_string bs).data =
      bs.flatMap (fun b => [hexDigit (b / 16), hexDigit (b % 16)]) := rfl

lemma flatMap_hex_length (bs : List Nat) :
    (bs.flatMap (fun b => [hexDigit (b / 16), hexDigit (b % 16)])).length =
      2 * bs.length := by
  induction bs with
  | nil => rfl
  | cons b bs ih =>
    rw [List.flatMap_cons]
    simp only [List.length_append, List.length_cons, ih, List.length_nil]
    omega

lemma flatMap_hex_mem (bs : List Nat) (h : ∀ b ∈ bs, b < 256) :
    ∀ c ∈ bs.flatMap (fun b => [hexDigit (b / 16), hexDigit (b % 16)]),
      c ∈ hexAlphabet := by
  intro c hc
  obtain ⟨b, hb, hcb⟩ := List.mem_flatMap.mp hc
  have hblt := h b hb
  rcases List.mem_cons.mp hcb with rfl | hcb
  · exact hexDigit_mem _ (by omega)
  · rcases List.mem_singleton.mp hcb with rfl
    exact hexDigit_mem _ (Nat.mod_lt _ (by norm_num))

lemma hexCharsVal_flatMap (bs : List Nat) :
    ∀ acc, (∀ b ∈ bs, b < 256) →
      List.foldl (fun a c => 16 * a + hexVal c) acc
        (bs.flatMap (fun b => [hexDigit (b / 16), hexDigit (b % 16)])) =
      List.foldl (fun a b => 256 * a + b) acc bs := by
  induction bs with
  | nil => intro acc _; rfl
  | cons b bs ih =>
    intro acc h
    have hb := h b (List.mem_cons_self _ _)
    rw [List.flatMap_cons, List.foldl_append]
    rw [show List.foldl (fun a c => 16 * a + hexVal c) acc
        [hexDigit (b / 16), hexDigit (b % 16)] =
        16 * (16 * acc + hexVal (hexDigit (b / 16))) +
          hexVal (hexDigit (b % 16)) from rfl]
    rw [hexDigit_val _ (by omega), hexDigit_val _ (Nat.mod_lt _ (by norm_num))]
    rw [show 16 * (16 * acc + b / 16) + b % 16 = 256 * acc + b from by omega]
    rw [ih _ fun x hx => h x (List.mem_cons_of_mem _ hx)]
    rfl

lemma bytesVal_foldl_lt (bs : List Nat) :
    ∀ acc, (∀ b ∈ bs, b < 256) →
      List.foldl (fun a b => 256 * a + b) acc bs <
        256 ^ bs.length * (acc + 1) := by
  induction bs with
  | nil =>
    intro acc _
    rw [List.foldl_nil, List.length_nil, pow_zero, one_mul]
    omega
  | cons b bs ih =>
    intro acc h
    have hb := h b (List.mem_cons_self _ _)
    rw [List.foldl_cons]
    calc List.foldl (fun a b => 256 * a + b) (256 * acc + b) bs
        < 256 ^ bs.length * (256 * acc + b + 1) :=
          ih _ fun x hx => h x (List.mem_cons_of_mem _ hx)
      _ ≤ 256 ^ (b :: bs).length * (acc + 1) := by
          rw [List.length_cons, pow_succ]
          calc 256 ^ bs.length * (256 * acc + b + 1)
              ≤ 256 ^ bs.length * (256 * (acc + 1)) :=
                Nat.mul_le_mul_left _ (by omega)
            _ = 256 ^ bs.length * 256 * (acc + 1) := by ring

/-! ## UTF-8 length accounting -/

lemma utf8Char_pos (c : Char) : 1 ≤ (utf8Char c).length := by
  unfold utf8Char
  dsimp only
  split_ifs <;> simp

lemma utf8_len_reverse (l : List Char) :
    (l.reverse.flatMap utf8Char).length = (l.flatMap utf8Char).length := by
  induction l with
  | nil => rfl
  | cons a l ih =>
    rw [List.reverse_cons, List.flatMap_append, List.flatMap_cons]
    simp only [List.length_append]
    simp [ih]
    omega

lemma uLen_splitWsAux (l : List Char) :
    ∀ cur, ((sepJoin (splitWsAux l cur)).flatMap utf8Char).length ≤
      (cur.flatMap utf8Char).length + (l.flatMap utf8Char).length := by
  induction l with
  | nil =>
    intro cur
    by_cases h : cur.isEmpty
    · simp [splitWsAux, h, sepJoin]
    · simp only [splitWsAux, h, Bool.false_eq_true, if_false]
      rw [show sepJoin [cur.reverse] = cur.reverse ++ [] from by simp [sepJoin],
        List.append_nil, utf8_len_reverse]
      simp
  | cons c rest ih =>
    intro cur
    have hc1 := utf8Char_pos c
    by_cases hc : isWhitespace c
    · by_cases hcur : cur.isEmpty
      · simp only [splitWsAux, hc, if_true, hcur]
        have := ih []
        simp only [List.flatMap_nil, List.length_nil, Nat.zero_add] at this
        rw [List.flatMap_cons]
        simp only [List.length_append]
        omega
      · simp only [splitWsAux, hc, if_true, hcur, Bool.false_eq_true, if_false]
        have hmain := ih []
        simp only [List.flatMap_nil, List.length_nil, Nat.zero_add] at hmain
        cases hws : splitWsAux rest [] with
        | nil =>
          rw [show sepJoin [cur.reverse] = cur.reverse ++ [] from by
            simp [sepJoin], List.append_nil, utf8_len_reverse,
            List.flatMap_cons]
          simp only [List.length_append]
          omega
        | cons x t =>
          rw [show sepJoin (cur.reverse :: x :: t) =
            cur.reverse ++ ' ' :: sepJoin (x :: t) from sepJoin_cons_cons _ _ _]
          rw [hws] at hmain
          rw [List.flatMap_append, List.flatMap_cons]
          simp only [List.length_append]
          rw [utf8_len_reverse, List.flatMap_cons]
          simp only [List.length_append]
          have hsp : (utf8Char ' ').length = 1 := rfl
          omega
    · simp only [splitWsAux, hc, Bool.false_eq_true, if_false]
      have := ih (c :: cur)
      rw [List.flatMap_cons] at this
      simp only [List.length_append] at this
      rw [List.flatMap_cons]
      simp only [List.length_append]
      omega

lemma normalize_utf8_le_helper (t : String) :
    ((normalize t).data.flatMap utf8Char).length ≤
      ((toLowercase t).data.flatMap utf8Char).length := by
  rw [normalize_data, splitWhitespace]
  simpa using uLen_splitWsAux (toLowercase t).data []

/-! ## The batch loop -/

lemma batch_foldl (ts : List String) :
    ∀ acc, ts.foldl (fun out s => out ++ [text_hash s]) acc =
      acc ++ ts.map text_hash := by
  induction ts with
  | nil => intro acc; simp
  | cons s ts ih =>
    intro acc
    rw [List.foldl_cons, ih, List.map_cons]
    simp

lemma batch_eq_map (ts : List String) :
    normalize_and_hash_batch ts = ts.map normalize_and_hash := by
  unfold normalize_and_hash_batch normalize_and_hash
  rw [batch_foldl ts []]
  rfl

/-! ## The claims -/

/-- C1: whenever two texts have equal normalized forms, `normalize_and_hash`
returns byte-identical fingerprint strings for them. -/
theorem C1_hash_respects_normalization (t1 t2 : String)
    (h : normalize t1 = normalize t2) :
    normalize_and_hash t1 = normalize_and_hash t2 :=
  text_hash_congr_helper t1 t2 h

/-- Witness for C1 at the spec's example pair. -/
theorem C1_hash_respects_normalization_witness :
    normalize_and_hash "  Hello   World  " = normalize_and_hash "hello world" :=
  C1_hash_respects_normalization "  Hello   World  " "hello world" (by decide)

/-- C2: `normalize` agrees with the reference definition — lowercase every
character with the (modelled) full Unicode lowercase mapping, split the
result on maximal runs of whitespace characters discarding empty
fragments, rejoin the fragments in order with a single ASCII space — and
on the spec's example it yields "hello world". -/
theorem C2_normalize_matches_reference (t : String) :
    normalize t = normalizeSpec t ∧
      normalize "  Hello   World  " = "hello world" := by
  constructor
  · apply String.ext
    rw [normalize_data]
    show sepJoin (splitWhitespace (toLowercase t).data) =
      List.intercalate [' ']
        (((toLowercase t).data.splitOnP isWhitespace).filter
          (fun w => !w.isEmpty))
    rw [intercalate_space, splitWhitespace_splitOnP]
  · decide

/-- C3: every fingerprint is exactly 32 characters, each a lowercase hex
digit, and reading the string as one base-16 number gives the value of the
16-byte MD5 digest folded most-significant byte first, a value below
`2^128`. -/
theorem C3_hash_format (t : String) :
    (text_hash t).length = 32 ∧
      (∀ c ∈ (text_hash t).data, c ∈ hexAlphabet) ∧
      hexCharsVal (text_hash t).data =
        bytesVal (md5Bytes (utf8Encode (normalize t))) ∧
      bytesVal (md5Bytes (utf8Encode (normalize t))) < 2 ^ 128 := by
  have hb := md5Bytes_lt (utf8Encode (normalize t))
  have hlen := md5Bytes_length (utf8Encode (normalize t))
  refine ⟨?_, ?_, ?_, ?_⟩
  · show (text_hash t).data.length = 32
    rw [show (text_hash t).data = _ from hex_string_data _,
      flatMap_hex_length, hlen]
  · intro c hc
    rw [show (text_hash t).data = _ from hex_string_data _] at hc
    exact flatMap_hex_mem _ hb c hc
  · rw [show (text_hash t).data = _ from hex_string_data _]
    exact hexCharsVal_flatMap _ 0 hb
  · have hv := bytesVal_foldl_lt (md5Bytes (utf8Encode (normalize t))) 0 hb
    rw [hlen, show (256 : Nat) ^ 16 * (0 + 1) = 2 ^ 128 from by norm_num] at hv
    exact hv

/-- C4: the batch operation equals mapping `normalize_and_hash` over the
input: same length, and element `i` of the output is the hash of element
`i` of the input, for sequences of any length including zero. -/
theorem C4_batch_is_map (ts : List String) :
    normalize_and_hash_batch ts = ts.map normalize_and_hash ∧
      (normalize_and_hash_batch ts).length = ts.length ∧
      ∀ i : Nat, (normalize_and_hash_batch ts)[i]? =
        (ts[i]?).map normalize_and_hash := by
  refine ⟨batch_eq_map ts, ?_, ?_⟩
  · rw [batch_eq_map, List.length_map]
  · intro i
    rw [batch_eq_map, List.getElem?_map]

/-- C5: the fingerprint of the empty string is the MD5 digest of the empty
byte sequence, and every whitespace-only text receives that same
constant. -/
theorem C5_empty_hash (t : String)
    (h : ∀ c ∈ t.data, isWhitespace c = true) :
    normalize_and_hash t = "d41d8cd98f00b204e9800998ecf8427e" ∧
      normalize_and_hash "" = "d41d8cd98f00b204e9800998ecf8427e" := by
  constructor
  · show text_hash t = _
    rw [text_hash_congr_helper t "" (by rw [normalize_of_all_ws t h]; rfl)]
    exact text_hash_empty_val
  · exact text_hash_empty_val

/-- Witness for C5 at a three-space text. -/
theorem C5_empty_hash_witness :
    normalize_and_hash "   " = "d41d8cd98f00b204e9800998ecf8427e" ∧
      normalize_and_hash "" = "d41d8cd98f00b204e9800998ecf8427e" :=
  C5_empty_hash "   " (by decide)

/-- C6: normalized output never starts or ends with a space, never holds
two consecutive spaces, every whitespace character in it is the single
ASCII space, and empty or whitespace-only input normalizes to the empty
string. -/
theorem C6_normalize_output_shape (t : String) :
    (normalize t).data.head? ≠ some ' ' ∧
      (normalize t).data.getLast? ≠ some ' ' ∧
      noDoubleSpace (normalize t).data = true ∧
      (∀ c ∈ (normalize t).data, isWhitespace c = true → c = ' ') ∧
      ((∀ c ∈ t.data, isWhitespace c = true) → normalize t = "") ∧
      normalize "" = "" ∧ normalize "   " = "" := by
  have good := splitWhitespace_words (toLowercase t).data
  refine ⟨?_, ?_, ?_, ?_, normalize_of_all_ws t, rfl, by decide⟩
  · rw [normalize_data]
    intro hcon
    have := sepJoin_head _ good ' ' hcon
    rw [isWhitespace_space] at this
    simp at this
  · rw [normalize_data]
    intro hcon
    have := sepJoin_getLast _ good ' ' hcon
    rw [isWhitespace_space] at this
    simp at this
  · rw [normalize_data]
    exact noDoubleSpace_sepJoin _ good
  · rw [normalize_data]
    intro c hc hws
    rcases sepJoin_mem _ c hc with rfl | ⟨w, hw, hcw⟩
    · rfl
    · rw [(good w hw).2 c hcw] at hws
      simp at hws

/-- Witness for C6: the two-consecutive-spaces conjunct at a concrete text
and the whitespace-only conjunct at three spaces. -/
theorem C6_normalize_output_shape_witness :
    noDoubleSpace (normalize "  a  b ").data = true ∧ normalize "   " = "" :=
  ⟨(C6_normalize_output_shape "  a  b ").2.2.1,
   (C6_normalize_output_shape "   ").2.2.2.2.1 (by decide)⟩

/-- C7: `normalize` is idempotent. -/
theorem C7_normalize_idempotent (t : String) :
    normalize (normalize t) = normalize t :=
  normalize_idem_helper t

/-- C8: the three exported operations are total over their whole input
domain: for every text and every sequence of texts each returns a value —
the embedding needs no Option/Except error channel, mirroring the absence
of failure branches in the source — and the batch output always has the
input's length. -/
theorem C8_operations_total (t : String) (ts : List String) :
    ∃ (s h : String) (out : List String),
      normalize_text t = s ∧ normalize_and_hash t = h ∧
        normalize_and_hash_batch ts = out ∧ out.length = ts.length :=
  ⟨_, _, _, rfl, rfl, rfl, by rw [batch_eq_map, List.length_map]⟩

/-- C9: the UTF-8 byte length of the normalized text never exceeds the
UTF-8 byte length of the lowercased text, so one output buffer pre-sized
to the lowercased length and filled by sequential append never grows. -/
theorem C9_normalized_fits_lowered_buffer (t : String) :
    (utf8Encode (normalize t)).length ≤ (utf8Encode (toLowercase t)).length :=
  normalize_utf8_le_helper t

/-- C10: normalization can lengthen its input: for the single character İ
(U+0130) the normalized form has strictly more characters and strictly
more UTF-8 bytes than the input, because İ lowercases to `i` followed by
combining dot above (U+0307). -/
theorem C10_normalize_can_expand :
    ∃ t : String, t.data.length < (normalize t).data.length ∧
      (utf8Encode t).length < (utf8Encode (normalize t)).length :=
  ⟨String.mk [Char.ofNat 0x130], by decide⟩

end CacheNormalizer
